import Mathlib

/-!
Verification of the crawl-and-persist pipeline of
`therapyfinder_scraper/scrape.py` against its natural-language
specification.  The Python functions are shallowly embedded as
executable Lean definitions; timestamps are modelled as rationals,
records and raw items as small concrete structures.
-/

/-! ## Upsert store (`process_clinicians_batch`, lines 206-232)

Each element of the batch becomes a MongoDB
`UpdateOne({"clinician_id": ...}, {"$set": data, "$setOnInsert": {"created_at": now}}, upsert=True)`.
The clinicians collection is modelled as a list of stored documents;
`clinician_id` carries a unique index (`ensure_indexes`, line 129).
The `$set` document produced by `process_single_clinician` always has the
same field set, modelled here by the fields of `ClinData` (two
representative payload fields stand for the full attribute map). -/

structure ClinData where
  clinician_id : String
  first_name : String
  bio : String
deriving DecidableEq, Repr

structure StoredClin where
  data : ClinData
  created_at : Nat
deriving DecidableEq, Repr

/-- `UpdateOne` with a filter on `clinician_id` updates (at most) the first
matching document: `$set` replaces the payload fields, `created_at` is
untouched because it only appears in `$setOnInsert`. -/
def updateFirst (c : ClinData) : List StoredClin → List StoredClin
  | [] => []
  | d :: ds =>
      if d.data.clinician_id = c.clinician_id then { d with data := c } :: ds
      else d :: updateFirst c ds

/-- One `UpdateOne(..., upsert=True)` operation: if some document matches the
`clinician_id` filter it is updated in place, otherwise a new document is
inserted with `created_at := now` (the `$setOnInsert` clause). -/
def upsertOne (now : Nat) (store : List StoredClin) (c : ClinData) : List StoredClin :=
  if store.any (fun d => d.data.clinician_id = c.clinician_id) then
    updateFirst c store
  else
    store ++ [⟨c, now⟩]

/-- `process_clinicians_batch`: the bulk write applies the per-record upsert
operations in order.  (`datetime.utcnow()` is sampled per batch here; only
its use as the insert-time `created_at` matters.) -/
def process_clinicians_batch (now : Nat) (store : List StoredClin)
    (batch : List ClinData) : List StoredClin :=
  batch.foldl (upsertOne now) store

/-! ## `link_relationships` (lines 509-532) -/

structure Ref where
  type : String
  id : String
deriving DecidableEq, Repr

/-- An object of the `included` array, addressed by its `(type, id)` pair;
`body` stands for the rest of the JSON object. -/
structure IncObj where
  type : String
  id : String
  body : String
deriving DecidableEq, Repr

/-- `rel_data.get("data")`: a missing/null value (or any non-list,
non-dict value), a single reference dict, or a list of reference dicts. -/
inductive RelVal where
  | nullv : RelVal
  | one : Ref → RelVal
  | many : List Ref → RelVal
deriving DecidableEq, Repr

structure DataItem where
  id : String
  type : String
  relationships : List (String × RelVal)
deriving DecidableEq, Repr

inductive LinkedVal where
  | one : Option IncObj → LinkedVal
  | many : List IncObj → LinkedVal
deriving DecidableEq, Repr

structure LinkedItem where
  id : String
  type : String
  relationships : List (String × LinkedVal)
deriving DecidableEq, Repr

/-- `included_map = {(i["type"], i["id"]): i for i in included}` followed by
`included_map.get(key)`: in a Python dict comprehension the last occurrence
of a key wins. -/
def includedMap (included : List IncObj) (r : Ref) : Option IncObj :=
  included.reverse.find? (fun i => i.type == r.type && i.id == r.id)

/-- The body of the `for rel_name, rel_data in relationships.items()` loop:
a list value keeps exactly the resolvable references
(`[... for r in rel_objects if included_map.get(...) is not None]`),
a dict value becomes `included_map.get(...)` (possibly `None`), and any
other value adds no key. -/
def linkOneRel (included : List IncObj) : String × RelVal → Option (String × LinkedVal)
  | (_, RelVal.nullv) => none
  | (name, RelVal.one r) => some (name, LinkedVal.one (includedMap included r))
  | (name, RelVal.many rs) =>
      some (name, LinkedVal.many (rs.filterMap (includedMap included)))

/-- Builds one entry of the `linked` dict for a data item. -/
def mkLinked (included : List IncObj) (item : DataItem) : LinkedItem :=
  ⟨item.id, item.type, item.relationships.filterMap (linkOneRel included)⟩

/-- Assignment `linked[item["id"]] = linked_item` into a Python dict:
overwrite the existing key if present, otherwise append. -/
def dictInsert (l : List (String × LinkedItem)) (k : String) (v : LinkedItem) :
    List (String × LinkedItem) :=
  if l.any (fun p => p.1 == k) then
    l.map (fun p => if p.1 == k then (k, v) else p)
  else
    l ++ [(k, v)]

/-- `link_relationships(data, included)` (lines 509-532). -/
def link_relationships (data : List DataItem) (included : List IncObj) :
    List (String × LinkedItem) :=
  data.foldl (fun linked item => dictInsert linked item.id (mkLinked included item)) []

/-! ## RateLimiter (lines 24-47)

`acquire()` holds `self.lock` for its whole body (including the
`asyncio.sleep`), so concurrent callers are fully serialized: an
execution is a sequence of completed `acquire()` calls.  One call is
described by the wall-clock value `now` read on entry (line 35) and the
value `t2` read by the final `self.calls.append(time.time())` (line 47).
Serialization gives `lastT ≤ now` (the previous call's append happened
before this call's entry read) and, when the window was full,
`asyncio.sleep` guarantees `t2 ≥ now + sleep_time` whenever the computed
`sleep_time = period - (now - head)` is positive.
A step whose values violate these constraints — or that raises
(`self.calls[0]` on an empty list when `max_calls = 0`) — is rejected,
so `runRL ... = some ...` characterizes the real executions. -/

structure RLStep where
  now : ℚ
  t2 : ℚ
deriving DecidableEq, Repr

/-- Line 37-39: drop the timestamps that fell out of the trailing window. -/
def evictCalls (period now : ℚ) (calls : List ℚ) : List ℚ :=
  calls.filter (fun c => decide (now - c < period))

/-- Validity of one completed `acquire()`: the post-sleep append time `t2`
respects the sleep computed on lines 42-44 (and the head access on line 42
does not raise). -/
def acquireOk (maxCalls : ℕ) (period : ℚ) (calls : List ℚ) (st : RLStep) : Bool :=
  let cs := evictCalls period st.now calls
  if maxCalls ≤ cs.length then
    match cs.head? with
    | some h =>
        if 0 < period - (st.now - h) then
          decide (st.now + (period - (st.now - h)) ≤ st.t2)
        else
          decide (st.now ≤ st.t2)
    | none => false
  else
    decide (st.now ≤ st.t2)

/-- State update of one `acquire()`: evict, then either drop the oldest
timestamp (line 45, full-window branch) or not, and append the admission
timestamp (line 47). -/
def acquireUpd (maxCalls : ℕ) (period : ℚ) (calls : List ℚ) (st : RLStep) : List ℚ :=
  let cs := evictCalls period st.now calls
  if maxCalls ≤ cs.length then cs.drop 1 ++ [st.t2]
  else cs ++ [st.t2]

/-- Run a serialized sequence of `acquire()` calls.  Returns the final
`self.calls` list, the full list of admission timestamps, and the last
admission time; `none` if the step sequence is not a real execution. -/
def runRL (maxCalls : ℕ) (period : ℚ) :
    List RLStep → List ℚ → List ℚ → ℚ → Option (List ℚ × List ℚ × ℚ)
  | [], calls, adms, lastT => some (calls, adms, lastT)
  | st :: rest, calls, adms, lastT =>
      if lastT ≤ st.now ∧ acquireOk maxCalls period calls st = true then
        runRL maxCalls period rest (acquireUpd maxCalls period calls st)
          (adms ++ [st.t2]) st.t2
      else none


/-- Invariant tying the RateLimiter window to the full admission history:
the window holds at most `maxCalls` timestamps, sorted and all at or before
the last admission time `lastT`; every admission inside any trailing window
anchored at or after `lastT` is still recorded in `calls`; and no window of
length `period` contains more than `maxCalls` admissions. -/
def RLInv (maxCalls : ℕ) (period : ℚ) (calls adms : List ℚ) (lastT : ℚ) : Prop :=
  calls.length ≤ maxCalls ∧
  List.Sorted (· ≤ ·) calls ∧
  (∀ a ∈ calls, a ≤ lastT) ∧
  (∀ u : ℚ, lastT ≤ u →
      adms.countP (fun a => decide (u - period < a))
        ≤ calls.countP (fun a => decide (u - period < a))) ∧
  (∀ w : ℚ, adms.countP (fun a => decide (w < a ∧ a ≤ w + period)) ≤ maxCalls)

/-! ## Concurrency gate (`asyncio.Semaphore`, lines 457 and 259)

`main` creates `asyncio.Semaphore(MAX_CONCURRENT_REQUESTS)` and every
`scrape_city_concurrent` body runs inside `async with semaphore`.  The
semaphore holds a counter initialized to the bound; an enter event can
only occur while the counter is positive (otherwise the caller stays
suspended and no event happens), and the `async with` exit always returns
the slot.  A trace of occurred enter/exit events is therefore valid iff
`runSem` accepts it. -/

inductive SemOp where
  | enter : SemOp
  | exit : SemOp
deriving DecidableEq, Repr

/-- Replays a trace of gate events, tracking the internal counter `avail`
and the number `active` of workers currently between entry and exit. -/
def runSem : List SemOp → ℕ → ℕ → Option (ℕ × ℕ)
  | [], avail, active => some (avail, active)
  | SemOp.enter :: rest, avail, active =>
      if avail = 0 then none else runSem rest (avail - 1) (active + 1)
  | SemOp.exit :: rest, avail, active =>
      if active = 0 then none else runSem rest (avail + 1) (active - 1)

/-! ## The per-city page loop (`scrape_city_concurrent`, lines 255-348)

The loop is parametrized by the origin API (`api page` is the parsed JSON
of `fetch_page`, `none` when the fetch timed out, errored, or returned a
non-2xx status) and by the record mapper (`process_single_clinician`,
which returns `None` when normalization of one item raises).  Raw items
and normalized records are modelled as natural numbers; the in-place
`linked` enrichment of items (lines 286-293) only rewrites item payloads
and is absorbed into the mapper.  Ghost fields `produced` (every record
ever appended to the clinicians buffer) and `fetchCount` (number of
`fetch_page` calls) instrument the state. -/

structure Resp where
  items : List ℕ
  hasNext : Bool
deriving DecidableEq, Repr

structure CityState where
  total : ℕ
  page : ℕ
  rawBatch : List ℕ
  clinBatch : List ℕ
  rawFlushes : List (List ℕ)
  clinFlushes : List (List ℕ)
  produced : List ℕ
  fetchCount : ℕ
deriving DecidableEq, Repr

def initCityState : CityState := ⟨0, 1, [], [], [], [], [], 0⟩

/-- Lines 309-318: the `for clinician in data["data"]` loop.  Returns the
updated `(total_city_records, clinicians_batch, produced)`. -/
def processItems (limit : ℕ) (mapper : ℕ → Option ℕ) :
    List ℕ → ℕ → List ℕ → List ℕ → ℕ × List ℕ × List ℕ
  | [], total, batch, produced => (total, batch, produced)
  | item :: rest, total, batch, produced =>
      if 0 < limit ∧ limit ≤ total then (total, batch, produced)
      else
        match mapper item with
        | some c => processItems limit mapper rest (total + 1) (batch ++ [c]) (produced ++ [c])
        | none => processItems limit mapper rest total batch produced

/-- The `fetch_page` call of one iteration (line 285): one more fetch. -/
def bumpFetch (s : CityState) : CityState :=
  { s with fetchCount := s.fetchCount + 1 }

/-- Lines 298-327 on a page with non-empty data: append the raw page to its
batch, run the clinicians loop, then flush either batch if it has reached
`BATCH_SIZE` (resetting it to `[]`). -/
def pageStep (limit batchSize : ℕ) (mapper : ℕ → Option ℕ) (resp : Resp)
    (s : CityState) : CityState :=
  let rawB := s.rawBatch ++ [s.page]
  let tbp := processItems limit mapper resp.items s.total s.clinBatch s.produced
  let rawFl := if batchSize ≤ rawB.length then s.rawFlushes ++ [rawB] else s.rawFlushes
  let rawB2 := if batchSize ≤ rawB.length then [] else rawB
  let clinB := tbp.2.1
  let clinFl := if batchSize ≤ clinB.length then s.clinFlushes ++ [clinB] else s.clinFlushes
  let clinB2 := if batchSize ≤ clinB.length then [] else clinB
  { total := tbp.1, page := s.page, rawBatch := rawB2, clinBatch := clinB2,
    rawFlushes := rawFl, clinFlushes := clinFl, produced := tbp.2.2,
    fetchCount := s.fetchCount }

/-- One iteration of the `while has_more_pages` loop.  `Sum.inr` means the
loop has stopped after this iteration (a `break`, or `has_more_pages`
set to `False`); `Sum.inl` means it continues with the next page. -/
def cityIter (limit batchSize : ℕ) (api : ℕ → Option Resp) (mapper : ℕ → Option ℕ)
    (s : CityState) : CityState ⊕ CityState :=
  if 0 < limit ∧ limit ≤ s.total then Sum.inr s
  else
    match api s.page with
    | none => Sum.inr (bumpFetch s)
    | some resp =>
        if resp.items = [] then Sum.inr (bumpFetch s)
        else
          let s2 := pageStep limit batchSize mapper resp (bumpFetch s)
          if resp.hasNext then Sum.inl { s2 with page := s2.page + 1 }
          else Sum.inr s2

/-- The `while has_more_pages` loop itself, with an iteration budget:
`none` means the loop was still running after `fuel` iterations. -/
def cityLoop (limit batchSize : ℕ) (api : ℕ → Option Resp) (mapper : ℕ → Option ℕ) :
    ℕ → CityState → Option CityState
  | 0, _ => none
  | fuel + 1, s =>
      match cityIter limit batchSize api mapper s with
      | Sum.inr sDone => some sDone
      | Sum.inl sNext => cityLoop limit batchSize api mapper fuel sNext

/-- Lines 339-343: the final flushes of any remaining batches (each one
guarded by a non-emptiness test in the code). -/
def finalFlush (s : CityState) : CityState :=
  let s1 := if s.rawBatch = [] then s
            else { s with rawFlushes := s.rawFlushes ++ [s.rawBatch], rawBatch := [] }
  if s1.clinBatch = [] then s1
  else { s1 with clinFlushes := s1.clinFlushes ++ [s1.clinBatch], clinBatch := [] }

/-- `scrape_city_concurrent` after gate entry: run the page loop, then the
final flushes. -/
def scrape_city_concurrent (limit batchSize : ℕ) (api : ℕ → Option Resp)
    (mapper : ℕ → Option ℕ) (fuel : ℕ) : Option CityState :=
  (cityLoop limit batchSize api mapper fuel initCityState).map finalFlush

/-! ## Flush helpers and their call sites (lines 192-232, 320-327, 339-343)

`store_raw_pages_batch` and `process_clinicians_batch` wrap the bulk
write in `try/except`: an empty batch returns early (Python `None`,
modelled `none`), a successful write returns the write count, and a
raised exception is caught, logged, and turned into a plain `return 0`.
The boolean parameter says whether the underlying bulk write succeeds.
At every call site the return value is discarded and the local buffer
variable is reassigned to `[]` immediately after the call (lines
322-323, 326-327) or the loop ends (lines 340-343), so the buffer that
was passed in is never kept. -/

structure RawPage where
  state : String
  city : String
  page : ℕ
deriving DecidableEq, Repr

/-- `store_raw_pages_batch` result value (lines 192-203). -/
def store_raw_pages_batch (insertOk : Bool) (batch : List RawPage) : Option ℕ :=
  if batch = [] then none
  else if insertOk then some batch.length else some 0

/-- `process_clinicians_batch` result value (lines 206-232): on success
MongoDB reports `upserted_count + modified_count`, modelled as the batch
length; on a raised bulk-write error the handler returns 0. -/
def process_clinicians_batch_result (writeOk : Bool) (batch : List ClinData) : Option ℕ :=
  if batch = [] then none
  else if writeOk then some batch.length else some 0

/-- Call site of a raw-pages flush (lines 321-323): the awaited result and
the value of `raw_pages_batch` immediately afterwards. -/
def flushRawCallSite (insertOk : Bool) (batch : List RawPage) : Option ℕ × List RawPage :=
  (store_raw_pages_batch insertOk batch, [])

/-- Call site of a clinicians flush (lines 325-327): the awaited result and
the value of `clinicians_batch` immediately afterwards. -/
def flushClinCallSite (writeOk : Bool) (batch : List ClinData) : Option ℕ × List ClinData :=
  (process_clinicians_batch_result writeOk batch, [])

/-! ## Launch gating in `scrape_state_concurrent` (lines 396-413)

Before creating each city task the loop evaluates
`SCRAPE_LIMIT > 0 and sum(task.result() for task in tasks if task.done()) >= SCRAPE_LIMIT`
and breaks when it is true.  A decision point `k` observes the `k`
previously created tasks; `obs k` gives their observed state: the
`done` flag and `result()` the code can see, plus a ghost field
`admitted` — the number of records the task's city worker has actually
admitted to the store so far (its buffer appends / flushes), which the
guard cannot see. -/

structure TaskObs where
  done : Bool
  result : ℕ
  admitted : ℕ
deriving DecidableEq, Repr

/-- `sum(task.result() for task in tasks if task.done())`. -/
def observedDoneSum (ts : List TaskObs) : ℕ :=
  ((ts.filter (fun t => t.done)).map (fun t => t.result)).sum

/-- Ghost: the records actually admitted so far by the launched workers. -/
def actualAdmittedSum (ts : List TaskObs) : ℕ :=
  (ts.map (fun t => t.admitted)).sum

/-- The `for city in cities` task-creation loop (lines 397-413); returns
the list of cities for which a worker task was created. -/
def launchCities (limit : ℕ) (obs : ℕ → List TaskObs) :
    List String → ℕ → List String
  | [], _ => []
  | c :: cs, k =>
      if 0 < limit ∧ limit ≤ observedDoneSum (obs k) then []
      else c :: launchCities limit obs cs (k + 1)

/-! ## Stub origin APIs and observation sequences used as concrete inputs -/

/-- A stub origin API that returns one item and a next-page link on every
page. -/
def alwaysNextApi : ℕ → Option Resp := fun _ => some ⟨[1], true⟩

/-- A stub origin API: page 1 carries a next link, page 2 does not. -/
def twoPageApi : ℕ → Option Resp := fun p => some ⟨[p], decide (p = 1)⟩

/-- A stub origin API whose page-2 fetch fails once and for all (timeout /
client error / non-2xx, i.e. `fetch_page` returns `None`). -/
def failPage2Api : ℕ → Option Resp :=
  fun p => if p = 1 then some ⟨[1], true⟩ else none

/-- A stub origin API serving six pages of 20 records each (the code
requests `page[size] = 20`); page 6 has no next link. -/
def sixPage20Api : ℕ → Option Resp :=
  fun p => if p ≤ 6 then some ⟨List.replicate 20 p, decide (p < 6)⟩ else none

/-- The state in which the page loop for `sixPage20Api` terminates. -/
def sixPageLoopState : CityState :=
  (cityLoop 0 50 sixPage20Api some 10 initCityState).getD initCityState

/-- The observation sequence of an execution in which the only launched
city task is still running (`done = False`, so `task.result()` is not
consulted) but has already admitted 15 records. -/
def obsInFlight : ℕ → List TaskObs :=
  fun k => if k = 0 then [] else [⟨false, 0, 15⟩]

/-! ## Theorems -/

theorem updateFirst_append_of_no_match (c : ClinData) (l l2 : List StoredClin)
    (h : ∀ d ∈ l, d.data.clinician_id ≠ c.clinician_id) :
    updateFirst c (l ++ l2) = l ++ updateFirst c l2 := by
  induction l with
  | nil => simp
  | cons d ds ih =>
      have hd : d.data.clinician_id ≠ c.clinician_id := h d (by simp)
      simp only [List.cons_append, updateFirst, if_neg hd]
      rw [List.append_eq, ih (fun x hx => h x (by simp [hx]))]

/-- Claim C1: upsert is idempotent on the natural key: upserting two records that
share a `clinician_id` absent from the store leaves exactly one stored row
for that key, carrying the second record's payload and the `created_at`
value set by the first insert. -/
theorem upsert_idempotent_on_natural_key
    (store : List StoredClin) (r1 r2 : ClinData) (t1 t2 : Nat) (k : String)
    (hk1 : r1.clinician_id = k) (hk2 : r2.clinician_id = k)
    (hfresh : ∀ d ∈ store, d.data.clinician_id ≠ k) :
    (process_clinicians_batch t2 (process_clinicians_batch t1 store [r1]) [r2]).filter
      (fun d => decide (d.data.clinician_id = k)) = [⟨r2, t1⟩] := by
  have h1 : process_clinicians_batch t1 store [r1] = store ++ [⟨r1, t1⟩] := by
    simp only [process_clinicians_batch, List.foldl_cons, List.foldl_nil, upsertOne]
    rw [if_neg]
    simp only [List.any_eq_true, not_exists, decide_eq_true_eq, not_and]
    intro d hd
    exact fun hcontra => hfresh d hd (hcontra ▸ hk1 ▸ rfl)
  have h2 : process_clinicians_batch t2 (store ++ [⟨r1, t1⟩]) [r2]
      = store ++ [⟨r2, t1⟩] := by
    simp only [process_clinicians_batch, List.foldl_cons, List.foldl_nil, upsertOne]
    rw [if_pos]
    · rw [updateFirst_append_of_no_match r2 store [⟨r1, t1⟩]
        (fun d hd => hk2 ▸ hfresh d hd)]
      simp [updateFirst, hk1, hk2]
    · simp only [List.any_eq_true, decide_eq_true_eq]
      exact ⟨⟨r1, t1⟩, by simp, by simp [hk1, hk2]⟩
  rw [h1, h2, List.filter_append]
  have h3 : store.filter (fun d => decide (d.data.clinician_id = k)) = [] := by
    rw [List.filter_eq_nil_iff]
    intro d hd
    simp only [decide_eq_true_eq]
    exact hfresh d hd
  simp [h3, hk2]

theorem upsert_idempotent_on_natural_key_witness :
    (process_clinicians_batch 5
        (process_clinicians_batch 3 [] [⟨ "a", "x", "b1" ⟩]) [⟨ "a", "y", "b2" ⟩]).filter
      (fun d => decide (d.data.clinician_id = "a")) = [⟨⟨ "a", "y", "b2" ⟩, 3⟩] :=
  upsert_idempotent_on_natural_key [] ⟨ "a", "x", "b1" ⟩ ⟨ "a", "y", "b2" ⟩ 3 5 "a"
    rfl rfl (by simp)

theorem dictInsert_keys (l : List (String × LinkedItem)) (k : String) (v : LinkedItem)
    (x : String) :
    x ∈ (dictInsert l k v).map Prod.fst ↔ x ∈ l.map Prod.fst ∨ x = k := by
  unfold dictInsert
  by_cases h : l.any (fun p => p.1 == k) = true
  · rw [if_pos h, List.map_map]
    simp only [List.any_eq_true, beq_iff_eq] at h
    obtain ⟨q, hq, hqk⟩ := h
    simp only [List.mem_map, Function.comp]
    constructor
    · rintro ⟨p, hp, hpe⟩
      by_cases hk : p.1 = k
      · right
        rw [← hpe]
        simp [hk]
      · left
        refine ⟨p, hp, ?_⟩
        rw [← hpe]
        simp [hk]
    · rintro (⟨p, hp, hpe⟩ | rfl)
      · by_cases hk : p.1 = k
        · refine ⟨p, hp, ?_⟩
          simp only [hk, beq_self_eq_true, if_true]
          rw [← hk]
          exact hpe
        · refine ⟨p, hp, ?_⟩
          simp only [hk, beq_iff_eq, if_neg hk]
          exact hpe
      · exact ⟨q, hq, by simp [hqk]⟩
  · rw [if_neg h]
    simp

theorem dictInsert_mem (l : List (String × LinkedItem)) (k : String) (v : LinkedItem)
    (p : String × LinkedItem) (hp : p ∈ dictInsert l k v) : p ∈ l ∨ p = (k, v) := by
  unfold dictInsert at hp
  by_cases h : l.any (fun q => q.1 == k) = true
  · rw [if_pos h] at hp
    simp only [List.mem_map] at hp
    obtain ⟨q, hq, hqe⟩ := hp
    by_cases hk : q.1 = k
    · right
      rw [← hqe]
      simp [hk]
    · left
      rw [← hqe]
      simpa [hk] using hq
  · rw [if_neg h] at hp
    rcases List.mem_append.mp hp with h1 | h1
    · exact Or.inl h1
    · exact Or.inr (by simpa using h1)

theorem link_foldl_keys (included : List IncObj) (data : List DataItem) :
    ∀ (acc : List (String × LinkedItem)) (x : String),
      (x ∈ ((data.foldl (fun linked item =>
          dictInsert linked item.id (mkLinked included item)) acc).map Prod.fst)
        ↔ x ∈ acc.map Prod.fst ∨ x ∈ data.map DataItem.id) := by
  induction data with
  | nil => intro acc x; simp
  | cons item rest ih =>
      intro acc x
      simp only [List.foldl_cons]
      rw [ih]
      rw [dictInsert_keys]
      simp only [List.map_cons, List.mem_cons]
      tauto

theorem link_foldl_mem (included : List IncObj) (data : List DataItem) :
    ∀ (acc : List (String × LinkedItem)) (p : String × LinkedItem),
      p ∈ data.foldl (fun linked item =>
          dictInsert linked item.id (mkLinked included item)) acc →
      p ∈ acc ∨ ∃ item ∈ data, p = (item.id, mkLinked included item) := by
  induction data with
  | nil => intro acc p hp; simp at hp; exact Or.inl hp
  | cons item rest ih =>
      intro acc p hp
      simp only [List.foldl_cons] at hp
      rcases ih _ p hp with h1 | ⟨it, hit, rfl⟩
      · rcases dictInsert_mem _ _ _ _ h1 with h2 | rfl
        · exact Or.inl h2
        · exact Or.inr ⟨item, by simp⟩
      · exact Or.inr ⟨it, by simp [hit]⟩

/-- Claim C10: `link_relationships` returns a mapping keyed exactly by the ids of
the data items; each value is built from that item; a list-valued
relationship resolves to exactly the included objects whose `(type, id)`
pair is found (unresolvable references are omitted, never `None` entries);
a single-object relationship keeps the possibly-`None` lookup result, so
an unresolvable pair maps to `None`. -/
theorem link_relationships_contract (data : List DataItem) (included : List IncObj) :
    (∀ x : String,
        x ∈ (link_relationships data included).map Prod.fst ↔ x ∈ data.map DataItem.id) ∧
    (∀ p ∈ link_relationships data included,
        ∃ item ∈ data, p = (item.id, mkLinked included item)) ∧
    (∀ (rs : List Ref) (o : IncObj),
        o ∈ rs.filterMap (includedMap included) ↔ ∃ r ∈ rs, includedMap included r = some o) ∧
    (∀ (item : DataItem) (name : String) (rs : List Ref),
        (name, RelVal.many rs) ∈ item.relationships →
        (name, LinkedVal.many (rs.filterMap (includedMap included)))
          ∈ (mkLinked included item).relationships) ∧
    (∀ (item : DataItem) (name : String) (r : Ref),
        (name, RelVal.one r) ∈ item.relationships →
        (name, LinkedVal.one (includedMap included r))
          ∈ (mkLinked included item).relationships) := by
  refine ⟨?_, ?_, ?_, ?_, ?_⟩
  · intro x
    have := link_foldl_keys included data [] x
    simpa [link_relationships] using this
  · intro p hp
    have := link_foldl_mem included data [] p (by simpa [link_relationships] using hp)
    simpa using this
  · intro rs o
    simp [List.mem_filterMap]
  · intro item name rs hmem
    simp only [mkLinked]
    exact List.mem_filterMap.mpr ⟨(name, RelVal.many rs), hmem, rfl⟩
  · intro item name r hmem
    simp only [mkLinked]
    exact List.mem_filterMap.mpr ⟨(name, RelVal.one r), hmem, rfl⟩

theorem runSem_invariant (maxC : ℕ) :
    ∀ (ops : List SemOp) (avail active a2 act2 : ℕ),
      runSem ops avail active = some (a2, act2) → avail + active = maxC →
      a2 + act2 = maxC := by
  intro ops
  induction ops with
  | nil =>
      intro avail active a2 act2 h hsum
      simp only [runSem, Option.some.injEq, Prod.mk.injEq] at h
      omega
  | cons op rest ih =>
      intro avail active a2 act2 h hsum
      cases op with
      | enter =>
          by_cases ha : avail = 0
          · simp [runSem, ha] at h
          · rw [runSem, if_neg ha] at h
            exact ih (avail - 1) (active + 1) a2 act2 h (by omega)
      | exit =>
          by_cases ha : active = 0
          · simp [runSem, ha] at h
          · rw [runSem, if_neg ha] at h
            exact ih (avail + 1) (active - 1) a2 act2 h (by omega)

theorem runSem_prefix (suf : List SemOp) :
    ∀ (pre : List SemOp) (avail active : ℕ) (r : ℕ × ℕ),
      runSem (pre ++ suf) avail active = some r →
      ∃ r2 : ℕ × ℕ, runSem pre avail active = some r2 := by
  intro pre
  induction pre with
  | nil => intro avail active r _; exact ⟨(avail, active), rfl⟩
  | cons op rest ih =>
      intro avail active r h
      cases op with
      | enter =>
          by_cases ha : avail = 0
          · simp [runSem, ha] at h
          · rw [List.cons_append, runSem, if_neg ha] at h
            obtain ⟨r2, hr2⟩ := ih (avail - 1) (active + 1) r h
            exact ⟨r2, by rw [runSem, if_neg ha]; exact hr2⟩
      | exit =>
          by_cases ha : active = 0
          · simp [runSem, ha] at h
          · rw [List.cons_append, runSem, if_neg ha] at h
            obtain ⟨r2, hr2⟩ := ih (avail + 1) (active - 1) r h
            exact ⟨r2, by rw [runSem, if_neg ha]; exact hr2⟩

/-- Claim C5: with the gate initialized to `max_concurrent` free slots, at no
instant of a valid run are more than `max_concurrent` city workers between
gate entry and gate exit: after every prefix of the event trace the number
of active workers is at most the bound. -/
theorem concurrency_gate_bound (maxC : ℕ) (ops : List SemOp) (res : ℕ × ℕ)
    (h : runSem ops maxC 0 = some res) :
    ∀ (pre suf : List SemOp), ops = pre ++ suf →
      ∃ a act : ℕ, runSem pre maxC 0 = some (a, act) ∧ act ≤ maxC := by
  intro pre suf hsplit
  subst hsplit
  obtain ⟨r2, hr2⟩ := runSem_prefix suf pre maxC 0 res h
  refine ⟨r2.1, r2.2, by simpa using hr2, ?_⟩
  have := runSem_invariant maxC pre maxC 0 r2.1 r2.2 (by simpa using hr2) (by omega)
  omega

theorem concurrency_gate_bound_witness :
    ∃ a act : ℕ,
      runSem [SemOp.enter, SemOp.enter, SemOp.enter] 3 0 = some (a, act) ∧ act ≤ 3 :=
  concurrency_gate_bound 3
    [SemOp.enter, SemOp.enter, SemOp.enter, SemOp.exit, SemOp.enter] (0, 3)
    (by decide)
    [SemOp.enter, SemOp.enter, SemOp.enter] [SemOp.exit, SemOp.enter] rfl

/-- Claim C8 counterexample: with `SCRAPE_LIMIT = 10`, an in-flight city worker has
already admitted 15 ≥ 10 records, yet the launch loop — which sums
`task.result()` over *completed* tasks only — observes 0 and launches the
next city worker anyway. -/
theorem global_cap_gating_counterexample :
    launchCities 10 obsInFlight [ "city1", "city2" ] 0 = [ "city1", "city2" ] ∧
    10 ≤ actualAdmittedSum (obsInFlight 1) ∧
    observedDoneSum (obsInFlight 1) = 0 := by
  refine ⟨?_, by decide, by decide⟩
  decide

/-- Claim C8 amended: the launch gate compares the cap with the sum of results of
already-completed city tasks: with a cap of 0 every city is launched, and
whenever that observed sum has reached a positive cap no further city is
launched.  Records admitted by still-running workers are invisible to the
gate, so launching can continue past the actual cumulative admitted count. -/
theorem global_cap_gating_observed (limit : ℕ) (obs : ℕ → List TaskObs) :
    (limit = 0 → ∀ (cities : List String) (k : ℕ),
        launchCities limit obs cities k = cities) ∧
    (∀ (cities : List String) (k : ℕ),
        0 < limit → limit ≤ observedDoneSum (obs k) →
        launchCities limit obs cities k = []) := by
  constructor
  · rintro rfl cities
    induction cities with
    | nil => intro k; rfl
    | cons c cs ih =>
        intro k
        rw [launchCities, if_neg (by omega)]
        rw [ih (k + 1)]
  · intro cities k hpos hsum
    cases cities with
    | nil => rfl
    | cons c cs => rw [launchCities, if_pos ⟨hpos, hsum⟩]

theorem global_cap_gating_observed_witness :
    launchCities 0 obsInFlight [ "city1" ] 0 = [ "city1" ] :=
  (global_cap_gating_observed 0 obsInFlight).1 rfl [ "city1" ] 0

/-- Claim C4 counterexample: a raw-pages or clinicians flush whose bulk write
fails does *not* retain the buffer and does not surface a failure: the
exception is caught inside the helper (which returns 0) and the call site
clears the buffer unconditionally, so the buffered items are discarded. -/
theorem flush_failure_counterexample :
    flushRawCallSite false [⟨ "texas", "austin", 1 ⟩] = (some 0, []) ∧
    flushClinCallSite false [⟨ "a", "x", "b" ⟩] = (some 0, []) ∧
    ([] : List RawPage) ≠ [⟨ "texas", "austin", 1 ⟩] := by
  refine ⟨rfl, rfl, by decide⟩

/-- Claim C4 amended: after any flush call — successful or failed — the caller's
buffer is `[]`; a failed non-empty bulk write is reported as a normal
return value 0 (never an exception reaching `scrape_city_concurrent`). -/
theorem flush_clears_buffer_always (insertOk writeOk : Bool)
    (rbatch : List RawPage) (cbatch : List ClinData) :
    (flushRawCallSite insertOk rbatch).2 = [] ∧
    (flushClinCallSite writeOk cbatch).2 = [] ∧
    (rbatch ≠ [] → insertOk = false → (flushRawCallSite insertOk rbatch).1 = some 0) ∧
    (cbatch ≠ [] → writeOk = false → (flushClinCallSite writeOk cbatch).1 = some 0) := by
  refine ⟨rfl, rfl, ?_, ?_⟩
  · rintro hne rfl
    simp [flushRawCallSite, store_raw_pages_batch, hne]
  · rintro hne rfl
    simp [flushClinCallSite, process_clinicians_batch_result, hne]

theorem flush_clears_buffer_always_witness :
    (flushRawCallSite true [⟨ "texas", "austin", 1 ⟩]).2 = [] :=
  (flush_clears_buffer_always true true [⟨ "texas", "austin", 1 ⟩] []).1

set_option maxRecDepth 10000

/-- Claim C3 counterexample: with `SCRAPE_LIMIT = 0` (the default) against an
origin API that returns a next-page link with data on every response, the
page loop of `scrape_city_concurrent` is still running after 501
iterations: the code contains no maximum-page-count guard (the spec's
example guard value is 500). -/
theorem pagination_max_page_guard_counterexample :
    cityLoop 0 50 alwaysNextApi some 501 initCityState = none := by
  decide

theorem cityIter_alwaysNext (batchSize : ℕ) (s : CityState) :
    ∃ s2 : CityState, cityIter 0 batchSize alwaysNextApi some s = Sum.inl s2 :=
  ⟨_, rfl⟩

/-- Claim C3 amended: the page loop stops when a page's response carries no next
link (a stub with a next link on page 1 only yields exactly two fetches and
then termination), but nothing bounds the page count: with `SCRAPE_LIMIT = 0`
and an API that always returns a next link with data, the loop is still
running after any number of iterations — there is no maximum-page-count
guard. -/
theorem pagination_termination_amended :
    (∀ (batchSize fuel : ℕ) (s : CityState),
        cityLoop 0 batchSize alwaysNextApi some fuel s = none) ∧
    (scrape_city_concurrent 0 50 twoPageApi some 10).map CityState.fetchCount = some 2 := by
  constructor
  · intro batchSize fuel
    induction fuel with
    | zero => intro s; rfl
    | succ n ih =>
        intro s
        obtain ⟨s2, hs2⟩ := cityIter_alwaysNext batchSize s
        simp only [cityLoop, hs2]
        exact ih s2
  · rfl

/-- Claim C6 counterexample: a single transient fetch failure (page 2 of
`failPage2Api` returns `None`) terminates the whole city scrape: the loop
ends with two fetches in total — page 2 was fetched exactly once, never
retried — and only page 1's single record was admitted. -/
theorem transient_error_terminates_counterexample :
    (scrape_city_concurrent 0 50 failPage2Api some 10).map
      (fun s => (s.fetchCount, s.page, s.total)) = some (2, 2, 1) := by
  rfl

/-- Claim C6 amended: transient fetch errors are not page-scoped and there is no
retry count: whenever the record-limit guard does not fire and the fetch of
the current page returns `None` (timeout, client error, non-2xx — all
caught inside `fetch_page`), the iteration immediately terminates the
sub-unit, having fetched that page exactly once. -/
theorem fetch_error_terminates_city (limit batchSize : ℕ)
    (api : ℕ → Option Resp) (mapper : ℕ → Option ℕ) (s : CityState)
    (hguard : ¬ (0 < limit ∧ limit ≤ s.total)) (hfail : api s.page = none) :
    cityIter limit batchSize api mapper s = Sum.inr (bumpFetch s) := by
  unfold cityIter
  rw [if_neg hguard, hfail]

theorem fetch_error_terminates_city_witness :
    cityIter 0 50 (fun _ => none) some initCityState = Sum.inr (bumpFetch initCityState) :=
  fetch_error_terminates_city 0 50 (fun _ => none) some initCityState (by decide) rfl

theorem processItems_spec (limit : ℕ) (mapper : ℕ → Option ℕ) :
    ∀ (items : List ℕ) (total : ℕ) (batch produced : List ℕ),
      ∃ add : List ℕ,
        processItems limit mapper items total batch produced
          = (total + add.length, batch ++ add, produced ++ add) := by
  intro items
  induction items with
  | nil => intro t b p; exact ⟨[], by simp [processItems]⟩
  | cons item rest ih =>
      intro t b p
      by_cases hg : 0 < limit ∧ limit ≤ t
      · exact ⟨[], by simp [processItems, hg]⟩
      · cases hm : mapper item with
        | some c =>
            obtain ⟨add, hadd⟩ := ih (t + 1) (b ++ [c]) (p ++ [c])
            refine ⟨c :: add, ?_⟩
            simp only [processItems, if_neg hg, hm]
            rw [hadd]
            simp only [List.append_assoc, List.singleton_append, List.length_cons]
            refine congrArg (fun n => (n, b ++ c :: add, p ++ c :: add)) ?_
            omega
        | none =>
            obtain ⟨add, hadd⟩ := ih t b p
            refine ⟨add, ?_⟩
            simp only [processItems, if_neg hg, hm]
            exact hadd

theorem pageStep_flushInv (limit batchSize : ℕ) (mapper : ℕ → Option ℕ)
    (resp : Resp) (s : CityState)
    (h1 : s.clinFlushes.flatten ++ s.clinBatch = s.produced)
    (h2 : s.total = s.produced.length)
    (h3 : ∀ b ∈ s.clinFlushes, batchSize ≤ b.length) :
    ((pageStep limit batchSize mapper resp s).clinFlushes.flatten ++
        (pageStep limit batchSize mapper resp s).clinBatch
      = (pageStep limit batchSize mapper resp s).produced) ∧
    ((pageStep limit batchSize mapper resp s).total
      = (pageStep limit batchSize mapper resp s).produced.length) ∧
    (∀ b ∈ (pageStep limit batchSize mapper resp s).clinFlushes, batchSize ≤ b.length) := by
  obtain ⟨add, hadd⟩ := processItems_spec limit mapper resp.items s.total s.clinBatch s.produced
  simp only [pageStep, hadd]
  by_cases hfl : batchSize ≤ (s.clinBatch ++ add).length
  · simp only [if_pos hfl]
    refine ⟨?_, ?_, ?_⟩
    · simp only [List.flatten_append, List.flatten_cons, List.flatten_nil, List.append_nil]
      rw [← List.append_assoc, h1]
    · simp [h2]
    · intro b hb
      rcases List.mem_append.mp hb with hb1 | hb1
      · exact h3 b hb1
      · rw [List.mem_singleton.mp hb1]
        exact hfl
  · simp only [if_neg hfl]
    refine ⟨?_, by simp [h2], h3⟩
    rw [← List.append_assoc, h1]

theorem cityIter_flushInv (limit batchSize : ℕ) (api : ℕ → Option Resp)
    (mapper : ℕ → Option ℕ) (s s2 : CityState)
    (h : cityIter limit batchSize api mapper s = Sum.inl s2 ∨
         cityIter limit batchSize api mapper s = Sum.inr s2)
    (h1 : s.clinFlushes.flatten ++ s.clinBatch = s.produced)
    (h2 : s.total = s.produced.length)
    (h3 : ∀ b ∈ s.clinFlushes, batchSize ≤ b.length) :
    s2.clinFlushes.flatten ++ s2.clinBatch = s2.produced ∧
    s2.total = s2.produced.length ∧
    (∀ b ∈ s2.clinFlushes, batchSize ≤ b.length) := by
  unfold cityIter at h
  split at h
  · rcases h with h | h
    · simp at h
    · simp only [Sum.inr.injEq] at h
      subst h
      exact ⟨h1, h2, h3⟩
  · split at h
    · rcases h with h | h
      · simp at h
      · simp only [Sum.inr.injEq] at h
        subst h
        exact ⟨h1, h2, h3⟩
    · rename_i resp heq
      split at h
      · rcases h with h | h
        · simp at h
        · simp only [Sum.inr.injEq] at h
          subst h
          exact ⟨h1, h2, h3⟩
      · have hps := pageStep_flushInv limit batchSize mapper resp (bumpFetch s) h1 h2 h3
        split at h
        · rcases h with h | h
          · simp only [Sum.inl.injEq] at h
            subst h
            exact hps
          · simp at h
        · rcases h with h | h
          · simp at h
          · simp only [Sum.inr.injEq] at h
            subst h
            exact hps

theorem cityLoop_flushInv (limit batchSize : ℕ) (api : ℕ → Option Resp)
    (mapper : ℕ → Option ℕ) :
    ∀ (fuel : ℕ) (s sEnd : CityState),
      cityLoop limit batchSize api mapper fuel s = some sEnd →
      s.clinFlushes.flatten ++ s.clinBatch = s.produced →
      s.total = s.produced.length →
      (∀ b ∈ s.clinFlushes, batchSize ≤ b.length) →
      (sEnd.clinFlushes.flatten ++ sEnd.clinBatch = sEnd.produced ∧
       sEnd.total = sEnd.produced.length ∧
       ∀ b ∈ sEnd.clinFlushes, batchSize ≤ b.length) := by
  intro fuel
  induction fuel with
  | zero => intro s sEnd h; simp [cityLoop] at h
  | succ n ih =>
      intro s sEnd h h1 h2 h3
      rcases hiter : cityIter limit batchSize api mapper s with s3 | s3
      · simp only [cityLoop, hiter] at h
        have hinv := cityIter_flushInv limit batchSize api mapper s s3 (Or.inl hiter) h1 h2 h3
        exact ih s3 sEnd h hinv.1 hinv.2.1 hinv.2.2
      · simp only [cityLoop, hiter, Option.some.injEq] at h
        subst h
        exact cityIter_flushInv limit batchSize api mapper s s3 (Or.inr hiter) h1 h2 h3

/-- Claim C7 amended: a clinicians flush happens at each page boundary at which
the buffer has reached `batch_size` — so every loop-phase flush has size at
least `batch_size`, but not exactly `batch_size` (with 20-record pages and
`batch_size = 50` the flushes carry 60 records) — plus one final flush of
any non-empty remainder at termination; the concatenation of all flushed
batches equals the sequence of records the sub-unit produced, so every
produced record is written exactly once and the counts add up. -/
theorem batch_flush_exactly_once (limit batchSize : ℕ) (api : ℕ → Option Resp)
    (mapper : ℕ → Option ℕ) (fuel : ℕ) (s : CityState)
    (h : cityLoop limit batchSize api mapper fuel initCityState = some s) :
    (finalFlush s).clinFlushes.flatten = s.produced ∧
    s.total = s.produced.length ∧
    (∀ b ∈ s.clinFlushes, batchSize ≤ b.length) := by
  have hinv := cityLoop_flushInv limit batchSize api mapper fuel initCityState s h
    rfl rfl (by simp [initCityState])
  refine ⟨?_, hinv.2.1, hinv.2.2⟩
  have h1 := hinv.1
  unfold finalFlush
  by_cases hrb : s.rawBatch = []
  · by_cases hcb : s.clinBatch = []
    · simp only [if_pos hrb, if_pos hcb]
      rw [hcb, List.append_nil] at h1
      exact h1
    · simp only [if_pos hrb, if_neg hcb]
      simp only [List.flatten_append, List.flatten_cons, List.flatten_nil, List.append_nil]
      exact h1
  · by_cases hcb : s.clinBatch = []
    · simp only [if_neg hrb, if_pos hcb]
      rw [hcb, List.append_nil] at h1
      exact h1
    · simp only [if_neg hrb, if_neg hcb]
      simp only [List.flatten_append, List.flatten_cons, List.flatten_nil, List.append_nil]
      exact h1

theorem batch_flush_exactly_once_witness :
    (finalFlush sixPageLoopState).clinFlushes.flatten = sixPageLoopState.produced ∧
    sixPageLoopState.total = sixPageLoopState.produced.length ∧
    (∀ b ∈ sixPageLoopState.clinFlushes, 50 ≤ b.length) :=
  batch_flush_exactly_once 0 50 sixPage20Api some 10 sixPageLoopState (by decide)

/-- Claim C7 counterexample: with `batch_size = 50` and six pages of 20 records
(the page size the code requests), the sub-unit produces 120 records but
the flush sizes are 60 and 60 — the threshold is only checked at page
boundaries — with an empty final remainder, not 50, 50 and a final 20. -/
theorem batch_flush_at_counts_counterexample :
    (scrape_city_concurrent 0 50 sixPage20Api some 10).map
        (fun s => (s.clinFlushes.map List.length, s.total)) = some ([60, 60], 120) ∧
    ([60, 60] : List ℕ) ≠ [50, 50, 20] := by
  exact ⟨by decide, by decide⟩

theorem rl_countP_filter_eq (p q : ℚ → Bool) (l : List ℚ)
    (h : ∀ a ∈ l, p a = true → q a = true) :
    (l.filter q).countP p = l.countP p := by
  induction l with
  | nil => rfl
  | cons a l ih =>
      have ih2 := ih (fun x hx hpx => h x (List.mem_cons_of_mem a hx) hpx)
      by_cases hq : q a = true
      · rw [List.filter_cons_of_pos hq, List.countP_cons, List.countP_cons, ih2]
      · have hp : ¬ p a = true := fun hp => hq (h a (List.mem_cons_self a l) hp)
        rw [List.filter_cons_of_neg hq, List.countP_cons, ih2]
        simp [hp]

theorem RLInv_init (maxCalls : ℕ) (period t0 : ℚ) :
    RLInv maxCalls period [] [] t0 := by
  refine ⟨by simp, by simp, by simp, ?_, ?_⟩
  · intro u _
    simp [List.countP_nil]
  · intro w
    simp [List.countP_nil]


theorem RLInv_step (maxCalls : ℕ) (period : ℚ) (calls adms : List ℚ)
    (lastT : ℚ) (st : RLStep) (inv : RLInv maxCalls period calls adms lastT)
    (hnow : lastT ≤ st.now) (hok : acquireOk maxCalls period calls st = true) :
    RLInv maxCalls period (acquireUpd maxCalls period calls st)
      (adms ++ [st.t2]) st.t2 := by
  obtain ⟨hlen, hsort, hmem, hrecent, hwin⟩ := inv
  have hcs_sub : ∀ a ∈ evictCalls period st.now calls, a ∈ calls :=
    fun a ha => (List.mem_filter.mp ha).1
  have hcs_len : (evictCalls period st.now calls).length ≤ calls.length :=
    List.length_filter_le _ _
  have hcs_sorted : List.Sorted (· ≤ ·) (evictCalls period st.now calls) :=
    hsort.filter _
  have hcount_cs : ∀ u : ℚ, st.now ≤ u →
      calls.countP (fun a => decide (u - period < a))
        = (evictCalls period st.now calls).countP (fun a => decide (u - period < a)) := by
    intro u hu
    refine (rl_countP_filter_eq _ _ calls ?_).symm
    intro a _ hd
    rw [decide_eq_true_eq] at hd ⊢
    linarith
  simp only [acquireOk] at hok
  simp only [acquireUpd]
  by_cases hfull : maxCalls ≤ (evictCalls period st.now calls).length
  · rw [if_pos hfull] at hok ⊢
    cases hcse : evictCalls period st.now calls with
    | nil =>
        rw [hcse] at hok
        exact absurd (show false = true from hok) Bool.false_ne_true
    | cons hd tl =>
        rw [hcse] at hok hcs_sub hcs_len hcs_sorted
        simp only [List.head?_cons] at hok
        have hpair : st.now ≤ st.t2 ∧ hd + period ≤ st.t2 := by
          by_cases hsl : 0 < period - (st.now - hd)
          · rw [if_pos hsl] at hok
            have hs2 := of_decide_eq_true hok
            constructor <;> linarith
          · rw [if_neg hsl] at hok
            have hs2 := of_decide_eq_true hok
            constructor
            · linarith
            · linarith
        obtain ⟨ht2now, hhd⟩ := hpair
        have hcount_tl : ∀ u : ℚ, st.t2 ≤ u →
            adms.countP (fun a => decide (u - period < a))
              ≤ tl.countP (fun a => decide (u - period < a)) := by
          intro u hu
          have e1 := hcount_cs u (le_trans ht2now hu)
          rw [hcse, List.countP_cons] at e1
          have hhdu : decide (u - period < hd) = false := by
            rw [decide_eq_false_iff_not]
            intro hlt
            linarith
          rw [hhdu] at e1
          simp at e1
          calc adms.countP (fun a => decide (u - period < a))
              ≤ calls.countP (fun a => decide (u - period < a)) :=
                hrecent u (le_trans hnow (le_trans ht2now hu))
            _ = tl.countP (fun a => decide (u - period < a)) := e1
        have htl_le : ∀ a ∈ tl, a ≤ lastT :=
          fun a ha => hmem a (hcs_sub a (List.mem_cons_of_mem hd ha))
        have hlen2 : tl.length + 1 ≤ maxCalls := by
          simp only [List.length_cons] at hcs_len
          omega
        show RLInv maxCalls period (tl ++ [st.t2]) (adms ++ [st.t2]) st.t2
        refine ⟨?_, ?_, ?_, ?_, ?_⟩
        · rw [List.length_append]
          simpa using hlen2
        · refine List.pairwise_append.mpr ⟨hcs_sorted.of_cons, by simp, ?_⟩
          intro a ha b hb
          rw [List.mem_singleton.mp hb]
          exact le_trans (htl_le a ha) (le_trans hnow ht2now)
        · intro a ha
          rcases List.mem_append.mp ha with h1 | h1
          · exact le_trans (htl_le a h1) (le_trans hnow ht2now)
          · rw [List.mem_singleton.mp h1]
        · intro u hu
          rw [List.countP_append, List.countP_append]
          have hc := hcount_tl u hu
          omega
        · intro w
          rw [List.countP_append]
          by_cases hpw : decide (w < st.t2 ∧ st.t2 ≤ w + period) = true
          · have hmono : adms.countP (fun a => decide (w < a ∧ a ≤ w + period))
                ≤ adms.countP (fun a => decide (st.t2 - period < a)) := by
              refine List.countP_mono_left ?_
              intro a _ hpa
              rw [decide_eq_true_eq] at hpa ⊢
              rw [decide_eq_true_eq] at hpw
              obtain ⟨hw1, hw2⟩ := hpa
              obtain ⟨hw3, hw4⟩ := hpw
              linarith
            have htl2 := hcount_tl st.t2 (le_refl _)
            have htl3 : tl.countP (fun a => decide (st.t2 - period < a)) ≤ tl.length := by
              cases tl with
              | nil => simp
              | cons x xs => exact List.countP_le_length _
            have hone : List.countP (fun a => decide (w < a ∧ a ≤ w + period)) [st.t2] ≤ 1 := by
              by_cases hx : w < st.t2 ∧ st.t2 ≤ w + period <;> simp [List.countP_cons, hx]
            omega
          · have hpw2 : ¬ (w < st.t2 ∧ st.t2 ≤ w + period) := by
              simpa using hpw
            have hzero : List.countP (fun a => decide (w < a ∧ a ≤ w + period)) [st.t2] = 0 := by
              simp [List.countP_cons, hpw2]
            rw [hzero]
            simpa using hwin w
  · rw [if_neg hfull] at hok ⊢
    have ht2now : st.now ≤ st.t2 := of_decide_eq_true hok
    have hcs_le : ∀ a ∈ evictCalls period st.now calls, a ≤ lastT :=
      fun a ha => hmem a (hcs_sub a ha)
    refine ⟨?_, ?_, ?_, ?_, ?_⟩
    · rw [List.length_append]
      simp only [List.length_singleton]
      omega
    · refine List.pairwise_append.mpr ⟨hcs_sorted, by simp, ?_⟩
      intro a ha b hb
      rw [List.mem_singleton.mp hb]
      exact le_trans (hcs_le a ha) (le_trans hnow ht2now)
    · intro a ha
      rcases List.mem_append.mp ha with h1 | h1
      · exact le_trans (hcs_le a h1) (le_trans hnow ht2now)
      · rw [List.mem_singleton.mp h1]
    · intro u hu
      rw [List.countP_append, List.countP_append]
      have e1 := hcount_cs u (le_trans ht2now hu)
      have e2 := hrecent u (le_trans hnow (le_trans ht2now hu))
      omega
    · intro w
      rw [List.countP_append]
      by_cases hpw : decide (w < st.t2 ∧ st.t2 ≤ w + period) = true
      · have hmono : adms.countP (fun a => decide (w < a ∧ a ≤ w + period))
            ≤ adms.countP (fun a => decide (st.t2 - period < a)) := by
          refine List.countP_mono_left ?_
          intro a _ hpa
          rw [decide_eq_true_eq] at hpa ⊢
          rw [decide_eq_true_eq] at hpw
          obtain ⟨hw1, hw2⟩ := hpa
          obtain ⟨hw3, hw4⟩ := hpw
          linarith
        have e1 := hcount_cs st.t2 ht2now
        have e2 := hrecent st.t2 (le_trans hnow ht2now)
        have e3 : (evictCalls period st.now calls).countP
            (fun a => decide (st.t2 - period < a))
            ≤ (evictCalls period st.now calls).length := by
          cases hev : evictCalls period st.now calls with
          | nil => simp
          | cons x xs => exact List.countP_le_length _
        have hone : List.countP (fun a => decide (w < a ∧ a ≤ w + period)) [st.t2] ≤ 1 := by
          by_cases hx : w < st.t2 ∧ st.t2 ≤ w + period <;> simp [List.countP_cons, hx]
        omega
      · have hpw2 : ¬ (w < st.t2 ∧ st.t2 ≤ w + period) := by
          simpa using hpw
        have hzero : List.countP (fun a => decide (w < a ∧ a ≤ w + period)) [st.t2] = 0 := by
          simp [List.countP_cons, hpw2]
        rw [hzero]
        simpa using hwin w

theorem runRL_inv (maxCalls : ℕ) (period : ℚ) :
    ∀ (steps : List RLStep) (calls adms : List ℚ) (lastT : ℚ)
      (callsEnd admsEnd : List ℚ) (lastEnd : ℚ),
      runRL maxCalls period steps calls adms lastT = some (callsEnd, admsEnd, lastEnd) →
      RLInv maxCalls period calls adms lastT →
      RLInv maxCalls period callsEnd admsEnd lastEnd := by
  intro steps
  induction steps with
  | nil =>
      intro calls adms lastT ce ae le h hinv
      simp only [runRL, Option.some.injEq, Prod.mk.injEq] at h
      obtain ⟨h1, h2, h3⟩ := h
      subst h1
      subst h2
      subst h3
      exact hinv
  | cons st rest ih =>
      intro calls adms lastT ce ae le h hinv
      by_cases hc : lastT ≤ st.now ∧ acquireOk maxCalls period calls st = true
      · simp only [runRL, if_pos hc] at h
        exact ih _ _ _ _ _ _ h (RLInv_step maxCalls period calls adms lastT st hinv hc.1 hc.2)
      · simp only [runRL, if_neg hc] at h
        exact Option.noConfusion h

theorem runRL_adms_length (maxCalls : ℕ) (period : ℚ) :
    ∀ (steps : List RLStep) (calls adms : List ℚ) (lastT : ℚ)
      (callsEnd admsEnd : List ℚ) (lastEnd : ℚ),
      runRL maxCalls period steps calls adms lastT = some (callsEnd, admsEnd, lastEnd) →
      admsEnd.length = adms.length + steps.length := by
  intro steps
  induction steps with
  | nil =>
      intro calls adms lastT ce ae le h
      simp only [runRL, Option.some.injEq, Prod.mk.injEq] at h
      obtain ⟨h1, h2, h3⟩ := h
      subst h2
      simp
  | cons st rest ih =>
      intro calls adms lastT ce ae le h
      by_cases hc : lastT ≤ st.now ∧ acquireOk maxCalls period calls st = true
      · simp only [runRL, if_pos hc] at h
        have := ih _ _ _ _ _ _ h
        simp only [List.length_append, List.length_cons, List.length_nil] at this ⊢
        omega
      · simp only [runRL, if_neg hc] at h
        exact Option.noConfusion h

/-- Claim C2: sliding-window rate bound.  For every execution of
`RateLimiter(max_calls, period)` — `acquire()` holds the limiter's lock for
its entire body, so concurrent callers serialize and every execution is one
of the step sequences accepted by `runRL` — and for every window
`(w, w + period]`, the number of recorded admission timestamps falling
inside the window is at most `max_calls`. -/
theorem rate_limiter_sliding_window_bound (maxCalls : ℕ) (period t0 : ℚ)
    (steps : List RLStep) (calls adms : List ℚ) (lastT : ℚ)
    (h : runRL maxCalls period steps [] [] t0 = some (calls, adms, lastT))
    (w : ℚ) :
    adms.countP (fun a => decide (w < a ∧ a ≤ w + period)) ≤ maxCalls :=
  (runRL_inv maxCalls period steps [] [] t0 calls adms lastT h
    (RLInv_init maxCalls period t0)).2.2.2.2 w

theorem rate_limiter_sliding_window_bound_witness :
    ([0, 1] : List ℚ).countP (fun a => decide ((0:ℚ) < a ∧ a ≤ 0 + 2)) ≤ 2 :=
  rate_limiter_sliding_window_bound 2 2 0 [⟨0, 0⟩, ⟨1, 1⟩]
    [0, 1] [0, 1] 1 (by simp [runRL, acquireOk, acquireUpd, evictCalls]) 0

/-- Claim C9: after every sequence of completed `acquire()` calls the
internal `self.calls` list has length at most `max_calls` and is sorted in
non-decreasing order, and every completed `acquire()` appends exactly one
admission timestamp: the admission history has one entry per call and each
state update appends the new timestamp at the end. -/
theorem rate_limiter_calls_invariant (maxCalls : ℕ) (period t0 : ℚ)
    (steps : List RLStep) (calls adms : List ℚ) (lastT : ℚ)
    (h : runRL maxCalls period steps [] [] t0 = some (calls, adms, lastT)) :
    calls.length ≤ maxCalls ∧ List.Sorted (· ≤ ·) calls ∧
    adms.length = steps.length ∧
    (∀ (cl : List ℚ) (st : RLStep), ∃ l : List ℚ,
      acquireUpd maxCalls period cl st = l ++ [st.t2]) := by
  have hinv := runRL_inv maxCalls period steps [] [] t0 calls adms lastT h
    (RLInv_init maxCalls period t0)
  refine ⟨hinv.1, hinv.2.1, ?_, ?_⟩
  · simpa using runRL_adms_length maxCalls period steps [] [] t0 calls adms lastT h
  · intro cl st
    simp only [acquireUpd]
    by_cases hfull : maxCalls ≤ (evictCalls period st.now cl).length
    · rw [if_pos hfull]
      exact ⟨_, rfl⟩
    · rw [if_neg hfull]
      exact ⟨_, rfl⟩

theorem rate_limiter_calls_invariant_witness :
    ([0, 1] : List ℚ).length ≤ 2 ∧ List.Sorted (· ≤ ·) ([0, 1] : List ℚ) ∧
    ([0, 1] : List ℚ).length = ([⟨0, 0⟩, ⟨1, 1⟩] : List RLStep).length ∧
    (∀ (cl : List ℚ) (st : RLStep), ∃ l : List ℚ,
      acquireUpd 2 2 cl st = l ++ [st.t2]) :=
  rate_limiter_calls_invariant 2 2 0 [⟨0, 0⟩, ⟨1, 1⟩]
    [0, 1] [0, 1] 1 (by simp [runRL, acquireOk, acquireUpd, evictCalls])
